import Mathlib

/-!
Shallow embedding of the Roller REPL evaluation core (`src/value.rs`,
`src/ast.rs`), together with proofs of the behavioural properties stated in
the specification.

Modelling conventions:
* `Ratio<i32>` is embedded as `ℚ` (Lean `Rat`), which maintains the very
  invariant the `num` crate maintains for `Ratio`: the fraction is kept in
  lowest terms with a positive denominator.  Machine-integer overflow of the
  32-bit components is outside the model.
* `BTreeMap<Value, Value>` is embedded as an association list
  `List (Value × Value)` compared with structural equality (`valueBeq`,
  mirroring the derived `PartialEq`/`Ord` of `Value`); the sorted storage
  order of a B-tree only affects iteration order, which no modelled
  operation observes.
* Fallible Rust functions returning `Result<T, EvalError>` become
  `Except EvalError T`.  `Value::index_mut` returns `&mut Value`; it is
  embedded as returning the (possibly updated) container together with the
  value at the returned location.
* A Rust panic reachable from in-range inputs — only `Ratio::recip` of a
  zero fraction, hit by `Value::pow` with a zero base and a negative
  integer exponent — aborts the process rather than returning a
  `Result`; it is embedded as `none` in an outer `Option`.
-/

namespace Roller

/-- Type of the identifier strings (`pub type IdType = String` in
`src/value.rs`). -/
abbrev IdType := String

/-- Modelled from the spec: op-codes key built-in operators and named
functions (`src/op.rs` is not under `src/`); the evaluator resolves them by
name, so they are embedded as strings. -/
abbrev OpCode := String

/-- Modelled from the spec: comparison operators `==, !=, <, <=, >, >=`
(`src/op.rs` is not under `src/`). -/
inductive CompOp
  | compEq
  | compNe
  | compLt
  | compLe
  | compGt
  | compGe
deriving DecidableEq, Repr

/-- Modelled from the spec: the error taxonomy of `src/error.rs` (not under
`src/`): a flat enumeration of kinds, each carrying a human-readable
message.  Constructor names follow the constructor functions used in
`src/value.rs` (`invalid_arg`, `unexpected_type`, `unsupported_op`,
`arithm_error`). -/
inductive EvalError
  | invalidArg (msg : String)
  | unexpectedType (msg : String)
  | unsupportedOp (msg : String)
  | arithmError (msg : String)
deriving DecidableEq, Repr

mutual

/-- A Roller expression (`Expr` in `src/ast.rs`).  `BTreeSet<Expr>` and
`BTreeMap<Expr, Expr>` are embedded as lists (of pairs); the B-tree only
fixes iteration order. -/
inductive Expr where
  | Val : Value → Expr
  | Id : IdType → Expr
  | Decl : IdType → Expr → Expr
  | Assign : IdType → Expr → Expr
  | Comp : CompOp → Expr → Expr → Expr
  | Op : FunCall → Expr
  | List : List Expr → Expr
  | Set : List Expr → Expr
  | Map : List (Expr × Expr) → Expr
  | Ctrl : Control → Expr
  | Distribution : List (Expr × Expr) → Expr

/-- Control structures (`Control` in `src/ast.rs`). -/
inductive Control where
  | Break : Control
  | Continue : Control
  | If : Expr → Expr → List Expr → Expr → Control
  | Loop : Expr → Control
  | While : Expr → Expr → Control
  | For : IdType → Expr → Expr → Control
  | Try : Expr → Expr → Control

/-- A function application with ordered and/or named arguments (`FunCall`
in `src/ast.rs`): op-code, ordered arguments, named arguments. -/
inductive FunCall where
  | mk : OpCode → List Expr → List (IdType × Expr) → FunCall

/-- A function definition (`FunDef` in `src/value.rs`): argument names and
body. -/
inductive FunDef where
  | mk : List IdType → Expr → FunDef

/-- A Roller value (`Value` in `src/value.rs`).  `Num` carries a `Ratio`
embedded as `ℚ`; `List` is a `Vec`; `Map` is a `BTreeMap<Value, Value>`
embedded as an association list; `Distribution` is a `BTreeMap<Expr, u32>`
embedded as a list of pairs. -/
inductive Value where
  | Void : Value
  | None : Value
  | Bool : Bool → Value
  | Num : Rat → Value
  | Str : String → Value
  | List : List Value → Value
  | Map : List (Value × Value) → Value
  | Distribution : List (Expr × Nat) → Value
  | Func : FunDef → Value

end

/-- The host boolean type, referenced under this alias inside signatures in
the `Value` namespace, where the constructor `Value.Bool` shadows the name
`Bool`. -/
abbrev HostBool := Bool

/-- The argument-name list of a function definition
(`FunDef::arg_names`). -/
def FunDef.arg_names : FunDef → List IdType
  | .mk a _ => a

/-- The body of a function definition (`FunDef::body`). -/
def FunDef.body : FunDef → Expr
  | .mk _ b => b

mutual

/-- Structural equality on expressions, mirroring the derived
`PartialEq`/`Eq` of `Expr` in `src/ast.rs` (and the equality induced by the
derived `Ord` used by the B-tree containers). -/
def exprBeq : Expr → Expr → Bool
  | .Val v1, .Val v2 => valueBeq v1 v2
  | .Id s1, .Id s2 => s1 == s2
  | .Decl s1 e1, .Decl s2 e2 => s1 == s2 && exprBeq e1 e2
  | .Assign s1 e1, .Assign s2 e2 => s1 == s2 && exprBeq e1 e2
  | .Comp o1 l1 r1, .Comp o2 l2 r2 => o1 == o2 && exprBeq l1 l2 && exprBeq r1 r2
  | .Op f1, .Op f2 => funCallBeq f1 f2
  | .List l1, .List l2 => exprListBeq l1 l2
  | .Set l1, .Set l2 => exprListBeq l1 l2
  | .Map m1, .Map m2 => exprPairListBeq m1 m2
  | .Ctrl c1, .Ctrl c2 => ctrlBeq c1 c2
  | .Distribution d1, .Distribution d2 => exprPairListBeq d1 d2
  | _, _ => false

/-- Structural equality on control structures. -/
def ctrlBeq : Control → Control → Bool
  | .Break, .Break => true
  | .Continue, .Continue => true
  | .If c1 t1 el1 e1, .If c2 t2 el2 e2 =>
      exprBeq c1 c2 && exprBeq t1 t2 && exprListBeq el1 el2 && exprBeq e1 e2
  | .Loop b1, .Loop b2 => exprBeq b1 b2
  | .While c1 b1, .While c2 b2 => exprBeq c1 c2 && exprBeq b1 b2
  | .For i1 it1 b1, .For i2 it2 b2 => i1 == i2 && exprBeq it1 it2 && exprBeq b1 b2
  | .Try e1 el1, .Try e2 el2 => exprBeq e1 e2 && exprBeq el1 el2
  | _, _ => false

/-- Structural equality on function calls. -/
def funCallBeq : FunCall → FunCall → Bool
  | .mk c1 a1 k1, .mk c2 a2 k2 =>
      c1 == c2 && exprListBeq a1 a2 && kwListBeq k1 k2

/-- Structural equality on function definitions. -/
def funDefBeq : FunDef → FunDef → Bool
  | .mk a1 b1, .mk a2 b2 => a1 == a2 && exprBeq b1 b2

/-- Structural equality on expression lists. -/
def exprListBeq : List Expr → List Expr → Bool
  | [], [] => true
  | e1 :: r1, e2 :: r2 => exprBeq e1 e2 && exprListBeq r1 r2
  | _, _ => false

/-- Structural equality on lists of expression pairs. -/
def exprPairListBeq : List (Expr × Expr) → List (Expr × Expr) → Bool
  | [], [] => true
  | (a1, b1) :: r1, (a2, b2) :: r2 =>
      exprBeq a1 a2 && exprBeq b1 b2 && exprPairListBeq r1 r2
  | _, _ => false

/-- Structural equality on named-argument lists. -/
def kwListBeq : List (IdType × Expr) → List (IdType × Expr) → Bool
  | [], [] => true
  | (n1, e1) :: r1, (n2, e2) :: r2 =>
      n1 == n2 && exprBeq e1 e2 && kwListBeq r1 r2
  | _, _ => false

/-- Structural equality on distribution entry lists. -/
def distListBeq : List (Expr × Nat) → List (Expr × Nat) → Bool
  | [], [] => true
  | (e1, w1) :: r1, (e2, w2) :: r2 =>
      exprBeq e1 e2 && w1 == w2 && distListBeq r1 r2
  | _, _ => false

/-- Structural equality on values, mirroring the derived `PartialEq`/`Eq`
of `Value` in `src/value.rs`; this is the key comparison the `BTreeMap`
containers resolve lookups with. -/
def valueBeq : Value → Value → Bool
  | .Void, .Void => true
  | .None, .None => true
  | .Bool b1, .Bool b2 => b1 == b2
  | .Num q1, .Num q2 => q1 == q2
  | .Str s1, .Str s2 => s1 == s2
  | .List l1, .List l2 => valueListBeq l1 l2
  | .Map m1, .Map m2 => valuePairListBeq m1 m2
  | .Distribution d1, .Distribution d2 => distListBeq d1 d2
  | .Func f1, .Func f2 => funDefBeq f1 f2
  | _, _ => false

/-- Structural equality on value lists. -/
def valueListBeq : List Value → List Value → Bool
  | [], [] => true
  | v1 :: r1, v2 :: r2 => valueBeq v1 v2 && valueListBeq r1 r2
  | _, _ => false

/-- Structural equality on lists of value pairs. -/
def valuePairListBeq : List (Value × Value) → List (Value × Value) → Bool
  | [], [] => true
  | (k1, v1) :: r1, (k2, v2) :: r2 =>
      valueBeq k1 k2 && valueBeq v1 v2 && valuePairListBeq r1 r2
  | _, _ => false

end

/-- Display of a `Ratio` as implemented by the `num` crate: just the
numerator when the denominator is 1, else `numerator/denominator`. -/
def numDisplay (q : ℚ) : String :=
  if q.den = 1 then toString q.num
  else toString q.num ++ "/" ++ toString q.den

/-- Modelled from the spec: the `Display` rendering of a `Value` (the
`impl` is not under `src/`): `Void` prints nothing, `None`, `Bool`, `Num`
as `numerator/denominator` or the integer when the denominator is 1, `Str`
verbatim; the other variants fall back to a debug-style structural dump
whose exact text the spec leaves open, rendered here as a stable tag. -/
def valueDisplay : Value → String
  | .Void => ""
  | .None => "None"
  | .Bool b => if b then "true" else "false"
  | .Num q => numDisplay q
  | .Str s => s
  | .List _ => "List(...)"
  | .Map _ => "Map(...)"
  | .Distribution _ => "Distribution(...)"
  | .Func _ => "Func(...)"

/-- Embeds `Ratio::to_integer`: the fraction truncated towards zero,
`numer / denom` in Rust integer division.  The denominator of a `Rat` is
positive, so this is `Int.tdiv` of numerator by denominator. -/
def ratToInteger (q : ℚ) : Int := q.num.tdiv (q.den : Int)

/-- Checks if this function definition is valid (`FunDef::check_valid` in
`src/value.rs`): walks `arg_names` inserting each into a set (`seen`,
embedding the `BTreeSet` of names already passed); the first name whose
insertion fails is reported as a duplicate. -/
def checkValidFrom : List IdType → List IdType → Except EvalError Unit
  | _, [] => .ok ()
  | seen, name :: rest =>
    if name ∈ seen then
      .error (.invalidArg ("argument `" ++ name ++ "` appeared more than once!"))
    else checkValidFrom (name :: seen) rest

/-- Embeds `FunDef::check_valid`, starting from an empty set of seen names. -/
def FunDef.check_valid (f : FunDef) : Except EvalError Unit :=
  checkValidFrom [] f.arg_names

/-- One step of the escape `match` inside `Value::new_string`: the
character pushed for `'\\'` followed by `c`. -/
def escChar (c : Char) : Char :=
  match c with
  | '\\' => '\\'
  | '"' => '"'
  | 'n' => '\n'
  | 'r' => '\r'
  | 't' => '\t'
  | c => c

/-- The character-iterator loop of `Value::new_string`: a backslash
consumes the next character and pushes its unescaped form; a backslash at
the end of the input pushes a literal backslash; every other character is
pushed unchanged. -/
def unescapeChars : List Char → List Char
  | [] => []
  | c :: rest =>
    if c = '\\' then
      match rest with
      | [] => ['\\']
      | e :: rest2 => escChar e :: unescapeChars rest2
    else c :: unescapeChars rest

/-- Unescapes a double quoted string value (`Value::new_string` in
`src/value.rs`).  Total: it never fails. -/
def Value.new_string (s : String) : Value :=
  .Str (String.mk (unescapeChars s.data))

/-- The list index computed by `Value::index_mut` for a `List` container:
a negative numerator within range counts from the end of the vector;
otherwise the numerator is cast to `usize` (two's-complement, 64-bit). -/
def listIdx (i : Int) (len : Nat) : Nat :=
  if i < 0 ∧ i.natAbs ≤ len then len - i.natAbs
  else (i % (2 : Int) ^ 64).toNat

/-- Embeds `BTreeMap::get_mut` on the association-list embedding: the value bound
to `key`, compared with structural equality. -/
def btreeGet : List (Value × Value) → Value → Option Value
  | [], _ => none
  | (k, v) :: rest, key => if valueBeq key k then some v else btreeGet rest key

/-- Embeds `BTreeMap::entry(key).or_insert(Value::None)` on the association-list
embedding: returns the map (with `key ↦ Value::None` added when `key` was
absent) together with the value at the entry.  The position a B-tree would
store a fresh key at is not modelled; the new entry is appended. -/
def mapEntryOrInsert : List (Value × Value) → Value → List (Value × Value) × Value
  | [], key => ([(key, .None)], .None)
  | (k, v) :: rest, key =>
    if valueBeq key k then ((k, v) :: rest, v)
    else
      let p := mapEntryOrInsert rest key
      ((k, v) :: p.1, p.2)

/-- Indexes the value (`Value::index_mut` in `src/value.rs`).  If `insert`
is true, a missing map key is inserted.  The Rust function returns
`&mut Value`; the embedding returns the (possibly updated) container
together with the value at the returned location. -/
def Value.index_mut (self : Value) (arg : Value) (insert : HostBool) :
    Except EvalError (Value × Value) :=
  match self with
  | .List vec =>
    match arg with
    | .Num x =>
      if x.den = 1 then
        match vec[listIdx x.num vec.length]? with
        | some v => .ok (.List vec, v)
        | none =>
          .error (.invalidArg ("index " ++ numDisplay x ++ " is out of bounds"))
      else
        .error (.unexpectedType
          ("expected an integer numeral argument for list indexing, got " ++
            valueDisplay arg))
    | _ =>
      .error (.unexpectedType
        ("expected an integer numeral argument for list indexing, got " ++
          valueDisplay arg))
  | .Map m =>
    if insert then
      .ok (.Map (mapEntryOrInsert m arg).1, (mapEntryOrInsert m arg).2)
    else
      match btreeGet m arg with
      | some v => .ok (.Map m, v)
      | none =>
        .error (.invalidArg ("key `" ++ valueDisplay arg ++ "` not found in map"))
  | val =>
    .error (.unexpectedType ("expected indexable value, got value " ++
      valueDisplay val))

/-- Perform negation operation for one numeral value (`Value::neg`). -/
def Value.neg : Value → Except EvalError Value
  | .Num a => .ok (.Num (-a))
  | _ => .error (.unsupportedOp ("negation is not supported for this type"))

/-- Addition between types; only supported for numerals (generated by the
`impl_op!` macro in `src/value.rs`). -/
def Value.add : Value → Value → Except EvalError Value
  | .Num x, .Num y => .ok (.Num (x + y))
  | _, _ =>
    .error (.unsupportedOp ("addition is not supported between these types"))

/-- Substraction between types; only supported for numerals (generated by
the `impl_op!` macro; the operator name string follows the source
spelling). -/
def Value.sub : Value → Value → Except EvalError Value
  | .Num x, .Num y => .ok (.Num (x - y))
  | _, _ =>
    .error (.unsupportedOp ("substraction is not supported between these types"))

/-- Multiplication between types; only supported for numerals (generated by
the `impl_op!` macro). -/
def Value.mul : Value → Value → Except EvalError Value
  | .Num x, .Num y => .ok (.Num (x * y))
  | _, _ =>
    .error (.unsupportedOp ("multiplication is not supported between these types"))

/-- Division between types; only supported for numerals (`Value::div`).
The divisor is checked against zero after truncation to an integer
(`y.to_integer() == 0`), exactly as in the source. -/
def Value.div : Value → Value → Except EvalError Value
  | .Num x, .Num y =>
    if ratToInteger y = 0 then .error (.arithmError ("division by zero"))
    else .ok (.Num (x / y))
  | _, _ =>
    .error (.unsupportedOp ("division is not supported between these types"))

/-- Embeds `Ratio::recip`: the inverted fraction.  In the `num` crate the
reciprocal of a zero fraction panics (it would need a zero denominator),
aborting the process; the panic is embedded as `none`. -/
def ratRecip (q : ℚ) : Option ℚ :=
  if q = 0 then none else some q⁻¹

/-- Embeds `Ratio::pow` at an `i32` exponent: a non-negative exponent
raises the fraction directly (numerator and denominator raised in place);
a negative exponent first takes the reciprocal — which panics (`none`) on
a zero base — and raises it to the negated exponent. -/
def ratPowInt (a : ℚ) (n : Int) : Option ℚ :=
  if 0 ≤ n then some (a ^ n.toNat)
  else (ratRecip a).map (fun r => r ^ n.natAbs)

/-- Raising value to the power of another (`Value::pow`).  An exponent
with denominator 1 is raised exactly through `Ratio::pow` on the numerator
(`ratPowInt`); the negative-exponent path of `Ratio::pow` panics on a zero
base via `Ratio::recip`, and the panic — a process abort, not an
`EvalError` — is embedded as the outer `none`.  A non-integer exponent is
approximated through `f32` arithmetic in the source, which has no shallow
embedding and is therefore passed in as the parameter `approx` (the
conversion of the operands to `f32`, the call to `powf` and the conversion
back to a `Ratio`). -/
def Value.pow (approx : ℚ → ℚ → ℚ) : Value → Value →
    Option (Except EvalError Value)
  | .Num a, .Num b =>
    if b.den = 1 then (ratPowInt a b.num).map (fun p => .ok (.Num p))
    else some (.ok (.Num (approx a b)))
  | _, _ =>
    some (.error (.unsupportedOp
      ("raising to power is not supported between these types")))

/-- Perform logical `not` operation for one boolean value (`Value::not`). -/
def Value.not : Value → Except EvalError Value
  | .Bool a => .ok (.Bool !a)
  | _ =>
    .error (.unsupportedOp ("not operation is not supported for this type"))

/-- Perform logical `and` operation between two boolean values
(`Value::and`). -/
def Value.and : Value → Value → Except EvalError Value
  | .Bool a, .Bool b => .ok (.Bool (a && b))
  | _, _ =>
    .error (.unsupportedOp
      ("boolean operators are not supported between these types"))

/-- Perform logical `or` operation between two boolean values
(`Value::or`). -/
def Value.or : Value → Value → Except EvalError Value
  | .Bool a, .Bool b => .ok (.Bool (a || b))
  | _, _ =>
    .error (.unsupportedOp
      ("boolean operators are not supported between these types"))

/-- Perform logical `xor` operation between two boolean values
(`Value::xor`). -/
def Value.xor : Value → Value → Except EvalError Value
  | .Bool a, .Bool b => .ok (.Bool (a.xor b))
  | _, _ =>
    .error (.unsupportedOp
      ("boolean operators are not supported between these types"))

/-! Helper lemmas about the embedded operations. -/

/-- Truncated division of a numerator by a positive denominator is zero
exactly when the numerator is smaller in absolute value. -/
theorem ratToInteger_eq_zero_iff_natAbs (q : ℚ) :
    ratToInteger q = 0 ↔ q.num.natAbs < q.den := by
  have hd : 0 < q.den := q.pos
  rw [ratToInteger]
  rcases hn : q.num with m | m
  · rw [show ((q.den : Nat) : Int) = Int.ofNat q.den from rfl,
      show Int.tdiv (Int.ofNat m) (Int.ofNat q.den) = Int.ofNat (m / q.den) from rfl,
      show Int.ofNat (m / q.den) = ((m / q.den : Nat) : Int) from rfl,
      Int.natCast_eq_zero, Nat.div_eq_zero_iff hd]
    exact Iff.rfl
  · rw [show ((q.den : Nat) : Int) = Int.ofNat q.den from rfl,
      show Int.tdiv (Int.negSucc m) (Int.ofNat q.den)
        = -(Int.ofNat (Nat.succ m / q.den)) from rfl,
      show Int.ofNat (Nat.succ m / q.den) = ((Nat.succ m / q.den : Nat) : Int) from rfl,
      neg_eq_zero, Int.natCast_eq_zero, Nat.div_eq_zero_iff hd]
    exact Iff.rfl

/-- A rational has absolute value below one exactly when its numerator is
smaller in absolute value than its denominator. -/
theorem abs_lt_one_iff_natAbs_lt_den (q : ℚ) :
    |q| < 1 ↔ q.num.natAbs < q.den := by
  have h0 : (0 : ℚ) < (q.den : ℚ) := by exact_mod_cast q.pos
  have habs : |q| = |(q.num : ℚ)| / (q.den : ℚ) := by
    rw [← Rat.num_div_den q, abs_div, abs_of_pos h0, Rat.num_div_den]
  rw [habs, div_lt_one h0, ← Int.cast_abs, Int.abs_eq_natAbs]
  exact_mod_cast Iff.rfl

/-- Truncation `Ratio::to_integer` of the divisor is zero exactly when the divisor
lies strictly between `-1` and `1`. -/
theorem ratToInteger_eq_zero_iff (q : ℚ) : ratToInteger q = 0 ↔ |q| < 1 := by
  rw [ratToInteger_eq_zero_iff_natAbs, abs_lt_one_iff_natAbs_lt_den]

/-- The computed list index for a negative in-range numerator counts from
the end of the vector. -/
theorem listIdx_neg_in_range (i : Int) (len : Nat) (h1 : i < 0)
    (h2 : i.natAbs ≤ len) : listIdx i len = len - i.natAbs := by
  rw [listIdx, if_pos ⟨h1, h2⟩]

/-- The computed list index for a non-negative numerator below the `usize`
range is the numerator itself. -/
theorem listIdx_nonneg (i : Int) (len : Nat) (h1 : 0 ≤ i)
    (h2 : i < 2 ^ 64) : listIdx i len = i.toNat := by
  rw [listIdx, if_neg (by omega)]
  omega

/-- The computed list index for a negative numerator beyond the front of
the vector wraps around the 64-bit cast and lands far past any vector
length representable on the host. -/
theorem listIdx_neg_out_of_range (i : Int) (len : Nat) (h1 : i < 0)
    (h2 : len < i.natAbs) (h3 : -(2 : Int) ^ 31 ≤ i) :
    2 ^ 64 - 2 ^ 31 ≤ listIdx i len := by
  rw [listIdx, if_neg (by omega)]
  omega

/-- Calling `entry(key).or_insert(None)` on a map that does not contain `key`
appends the binding `key ↦ None` and exposes the `None` just inserted. -/
theorem mapEntryOrInsert_of_absent (m : List (Value × Value)) (k : Value)
    (h : btreeGet m k = none) :
    mapEntryOrInsert m k = (m ++ [(k, .None)], .None) := by
  induction m with
  | nil => rfl
  | cons p rest ih =>
    obtain ⟨k2, v2⟩ := p
    rw [btreeGet] at h
    cases hb : valueBeq k k2 with
    | true => rw [hb] at h; simp at h
    | false =>
      rw [hb] at h
      simp only [Bool.false_eq_true, if_false] at h
      simp [mapEntryOrInsert, hb, ih h]

/-- Calling `entry(key).or_insert(None)` on a map that already binds `key` leaves
the map unchanged and exposes the bound value. -/
theorem mapEntryOrInsert_of_present (m : List (Value × Value)) (k v : Value)
    (h : btreeGet m k = some v) : mapEntryOrInsert m k = (m, v) := by
  induction m with
  | nil => rw [btreeGet] at h; cases h
  | cons p rest ih =>
    obtain ⟨k2, v2⟩ := p
    rw [btreeGet] at h
    cases hb : valueBeq k k2 with
    | true =>
      rw [hb] at h
      simp only [if_true] at h
      obtain rfl : v2 = v := by simpa using h
      simp [mapEntryOrInsert, hb]
    | false =>
      rw [hb] at h
      simp only [Bool.false_eq_true, if_false] at h
      simp [mapEntryOrInsert, hb, ih h]

/-- Validation `checkValidFrom seen l` succeeds exactly when `l` has no duplicates and
avoids every name already seen. -/
theorem checkValidFrom_ok_iff (l : List IdType) :
    ∀ seen : List IdType,
      checkValidFrom seen l = .ok () ↔ (l.Nodup ∧ ∀ x ∈ l, x ∉ seen) := by
  induction l with
  | nil => intro seen; simp [checkValidFrom]
  | cons n rest ih =>
    intro seen
    rw [checkValidFrom]
    by_cases hn : n ∈ seen
    · rw [if_pos hn]
      constructor
      · intro hcon; exact Except.noConfusion hcon
      · rintro ⟨-, hall⟩
        exact absurd hn (hall n (List.mem_cons_self n rest))
    · rw [if_neg hn, ih (n :: seen)]
      constructor
      · rintro ⟨hnd, hall⟩
        constructor
        · rw [List.nodup_cons]
          exact ⟨fun hmem => hall _ hmem (List.mem_cons_self n seen), hnd⟩
        · intro x hx
          rcases List.mem_cons.mp hx with rfl | hxr
          · exact hn
          · exact fun hxs => hall x hxr (List.mem_cons.mpr (Or.inr hxs))
      · rintro ⟨hnd, hall⟩
        rw [List.nodup_cons] at hnd
        refine ⟨hnd.2, fun x hx hxn => ?_⟩
        rcases List.mem_cons.mp hxn with rfl | hxs
        · exact hnd.1 hx
        · exact hall x (List.mem_cons.mpr (Or.inr hx)) hxs

/-- When `l` has a duplicate (or hits an already-seen name),
`checkValidFrom` stops at the first offending position and reports exactly
that name in an `InvalidArg` error. -/
theorem checkValidFrom_error_first (l : List IdType) :
    ∀ seen : List IdType, ¬(l.Nodup ∧ ∀ x ∈ l, x ∉ seen) →
      ∃ i, ∃ hi : i < l.length,
        (l.get ⟨i, hi⟩ ∈ seen ∨ l.get ⟨i, hi⟩ ∈ l.take i)
        ∧ (∀ j, ∀ hj : j < l.length, j < i →
            l.get ⟨j, hj⟩ ∉ seen ∧ l.get ⟨j, hj⟩ ∉ l.take j)
        ∧ checkValidFrom seen l = .error (.invalidArg
            ("argument `" ++ l.get ⟨i, hi⟩ ++ "` appeared more than once!")) := by
  induction l with
  | nil => intro seen h; exact absurd ⟨List.nodup_nil, by simp⟩ h
  | cons n rest ih =>
    intro seen h
    by_cases hn : n ∈ seen
    · refine ⟨0, by simp, Or.inl hn, ?_, ?_⟩
      · intro j hj hj0; omega
      · rw [checkValidFrom, if_pos hn]
        rfl
    · have h2 : ¬(rest.Nodup ∧ ∀ x ∈ rest, x ∉ n :: seen) := by
        rintro ⟨hnd, hall⟩
        refine h ⟨List.nodup_cons.mpr ⟨fun hmem => (hall _ hmem) ?_, hnd⟩, ?_⟩
        · exact List.mem_cons_self n seen
        · intro x hx
          rcases List.mem_cons.mp hx with rfl | hxr
          · exact hn
          · intro hxs
            exact (hall x hxr) (List.mem_cons.mpr (Or.inr hxs))
      obtain ⟨i, hi, hcond, hmin, heq⟩ := ih (n :: seen) h2
      refine ⟨i + 1, by simp only [List.length_cons]; omega, ?_, ?_, ?_⟩
      · show rest.get ⟨i, hi⟩ ∈ seen ∨ rest.get ⟨i, hi⟩ ∈ n :: rest.take i
        rcases hcond with hs | ht
        · rcases List.mem_cons.mp hs with he | hs2
          · exact Or.inr (List.mem_cons.mpr (Or.inl he))
          · exact Or.inl hs2
        · exact Or.inr (List.mem_cons.mpr (Or.inr ht))
      · intro j hj hji
        cases j with
        | zero => exact ⟨hn, by simp⟩
        | succ j2 =>
          have hj2 : j2 < rest.length := by
            simp only [List.length_cons] at hj; omega
          obtain ⟨hs, ht⟩ := hmin j2 hj2 (by omega)
          show rest.get ⟨j2, hj2⟩ ∉ seen ∧ rest.get ⟨j2, hj2⟩ ∉ n :: rest.take j2
          refine ⟨fun hmem => hs (List.mem_cons.mpr (Or.inr hmem)), ?_⟩
          intro hxn
          rcases List.mem_cons.mp hxn with he | hmem
          · exact hs (List.mem_cons.mpr (Or.inl he))
          · exact ht hmem
      · rw [checkValidFrom, if_neg hn]
        exact heq

/-! Claim theorems. -/

/-- C1: for all rational values `x` and `y`, `div(Num(x), Num(y))` fails
with `ArithmeticError` exactly when the truncation of `y` to an integer
equals zero — equivalently, exactly when `|y| < 1`, so it fails for
divisor 0 and also for every nonzero divisor with integer part zero such
as 1/2 — and otherwise returns the exact rational quotient `x / y`. -/
theorem div_zero_truncation_spec (x y : ℚ) :
    (ratToInteger y = 0 ↔ |y| < 1)
    ∧ (ratToInteger y = 0 →
        Value.div (.Num x) (.Num y) = .error (.arithmError ("division by zero")))
    ∧ (ratToInteger y ≠ 0 →
        Value.div (.Num x) (.Num y) = .ok (.Num (x / y))) := by
  refine ⟨ratToInteger_eq_zero_iff y, fun h => ?_, fun h => ?_⟩
  · rw [Value.div, if_pos h]
  · rw [Value.div, if_neg h]

/-- C1 witness: division by `1/2` (integer truncation zero) fails with the
arithmetic error, while division by `2` returns the exact quotient. -/
theorem div_zero_truncation_spec_witness :
    Value.div (.Num 1) (.Num (mkRat 1 2))
      = .error (.arithmError ("division by zero"))
    ∧ Value.div (.Num 7) (.Num 2) = .ok (.Num (7 / 2)) := by
  constructor
  · exact (div_zero_truncation_spec 1 (mkRat 1 2)).2.1 (by decide)
  · refine (div_zero_truncation_spec 7 2).2.2 ?_
    rw [ratToInteger]
    simp [Rat.num_ofNat, Rat.den_ofNat]

/-- C5: `add`, `sub` and `mul` succeed exactly on operand pairs
`(Num, Num)`, where they return the exact rational sum, difference and
product; for every other pairing of `Value` variants they fail with
`UnsupportedOp`. -/
theorem arith_ops_num_only (v w : Value) :
    (∀ x y : ℚ, v = .Num x → w = .Num y →
        v.add w = .ok (.Num (x + y))
        ∧ v.sub w = .ok (.Num (x - y))
        ∧ v.mul w = .ok (.Num (x * y)))
    ∧ ((∀ x y : ℚ, ¬(v = .Num x ∧ w = .Num y)) →
        v.add w = .error (.unsupportedOp
          ("addition is not supported between these types"))
        ∧ v.sub w = .error (.unsupportedOp
          ("substraction is not supported between these types"))
        ∧ v.mul w = .error (.unsupportedOp
          ("multiplication is not supported between these types"))) := by
  constructor
  · rintro x y rfl rfl
    exact ⟨rfl, rfl, rfl⟩
  · intro h
    cases v <;> cases w <;>
      first
        | exact absurd ⟨rfl, rfl⟩ (h _ _)
        | exact ⟨rfl, rfl, rfl⟩

/-- C5 witness: adding a string to a number is an unsupported operation,
while multiplying two numbers gives their exact product. -/
theorem arith_ops_num_only_witness :
    (Value.Str ("a")).add (.Num 1) = .error (.unsupportedOp
      ("addition is not supported between these types"))
    ∧ (Value.Num 2).mul (.Num 3) = .ok (.Num (2 * 3)) := by
  constructor
  · exact ((arith_ops_num_only (.Str ("a")) (.Num 1)).2
      (by rintro x y ⟨hc, -⟩; exact Value.noConfusion hc)).1
  · exact ((arith_ops_num_only (.Num 2) (.Num 3)).1 2 3 rfl rfl).2.2

/-- C8: for every `Num` value `x`, `neg(x)` succeeds and `add(x, neg(x))`
succeeds and equals `Num(0)`. -/
theorem add_neg_cancel_spec (q : ℚ) :
    ∃ y, Value.neg (.Num q) = .ok y ∧ (Value.Num q).add y = .ok (.Num 0) := by
  refine ⟨.Num (-q), rfl, ?_⟩
  rw [Value.add, add_neg_cancel]

/-- C9 counterexample: at `pow(Num 0, Num (-1))` — an integer exponent,
so inside the claim's scope — the program does not return the claimed
exact power: `Ratio::pow` with a negative exponent first takes
`Ratio::recip` of the zero base, which panics and aborts the process
(embedded as `none`), so nothing at all is returned. -/
theorem pow_zero_base_negative_exponent_panics :
    (((-1 : Int) : ℚ)).den = 1
    ∧ Value.pow (fun p q2 => p * q2) (.Num 0) (.Num ((-1 : Int) : ℚ)) = none
    ∧ Value.pow (fun p q2 => p * q2) (.Num 0) (.Num ((-1 : Int) : ℚ))
        ≠ some (.ok (.Num ((0 : ℚ) ^ ((((-1 : Int) : ℚ)).num)))) := by
  have hden : (((-1 : Int) : ℚ)).den = 1 := Rat.den_intCast _
  have hnone : Value.pow (fun p q2 => p * q2) (.Num 0)
      (.Num ((-1 : Int) : ℚ)) = none := by
    rw [Value.pow, if_pos hden, Rat.num_intCast]
    rw [ratPowInt, if_neg (by norm_num), ratRecip, if_pos rfl]
    rfl
  refine ⟨hden, hnone, ?_⟩
  rw [hnone]
  exact fun hcon => Option.noConfusion hcon

/-- C9 (amended): for operands `pow(Num(a), Num(b))` where the denominator
of `b` is 1 (an integer exponent), whenever the base is nonzero or the
exponent is non-negative, `pow` returns the exact rational `a` raised to
the integer power `b.num` (`zpow` on `ℚ`), independent of the
floating-point approximation routine; for a zero base and a negative
integer exponent the program panics (`Ratio::recip` of zero), embedded as
`none`, and returns nothing. -/
theorem pow_integer_exponent_exact (approx : ℚ → ℚ → ℚ) (a b : ℚ)
    (h : b.den = 1) :
    ((0 ≤ b.num ∨ a ≠ 0) →
        Value.pow approx (.Num a) (.Num b) = some (.ok (.Num (a ^ b.num)))
        ∧ ∀ approx2 : ℚ → ℚ → ℚ,
            Value.pow approx (.Num a) (.Num b)
              = Value.pow approx2 (.Num a) (.Num b))
    ∧ (a = 0 → b.num < 0 →
        Value.pow approx (.Num a) (.Num b) = none) := by
  have hpow : ∀ f : ℚ → ℚ → ℚ, Value.pow f (.Num a) (.Num b)
      = (ratPowInt a b.num).map (fun p => .ok (.Num p)) := by
    intro f
    rw [Value.pow, if_pos h]
  constructor
  · intro hcase
    have hval : ratPowInt a b.num = some (a ^ b.num) := by
      rw [ratPowInt]
      rcases le_or_lt 0 b.num with hn | hn
      · rw [if_pos hn]
        congr 1
        rw [← zpow_natCast, Int.toNat_of_nonneg hn]
      · rw [if_neg (not_le.mpr hn)]
        have ha : a ≠ 0 := by
          rcases hcase with hc | hc
          · omega
          · exact hc
        rw [ratRecip, if_neg ha]
        show some (a⁻¹ ^ b.num.natAbs) = some (a ^ b.num)
        congr 1
        rw [← zpow_natCast, inv_zpow, ← zpow_neg]
        congr 1
        omega
    rw [hpow approx, hval]
    exact ⟨rfl, fun approx2 => by rw [hpow approx2, hval]⟩
  · intro ha hn
    rw [hpow approx, ha, ratPowInt, if_neg (not_le.mpr hn), ratRecip,
      if_pos rfl]
    rfl

/-- C9 witness: `2` raised to the integer exponent `3` is computed exactly
for an arbitrarily chosen approximation routine, while a zero base with
exponent `-1` hits the embedded panic. -/
theorem pow_integer_exponent_exact_witness :
    Value.pow (fun p q2 => p * q2) (.Num 2) (.Num 3)
      = some (.ok (.Num ((2 : ℚ) ^ ((3 : ℚ).num))))
    ∧ Value.pow (fun p q2 => p * q2) (.Num 0) (.Num ((1 : Int) : ℚ))
      = some (.ok (.Num ((0 : ℚ) ^ ((((1 : Int) : ℚ)).num))))
    ∧ Value.pow (fun p q2 => p * q2) (.Num 0) (.Num ((-1 : Int) : ℚ))
      = none := by
  refine ⟨?_, ?_, ?_⟩
  · exact ((pow_integer_exponent_exact (fun p q2 => p * q2) 2 3
      (Rat.den_ofNat 3)).1 (Or.inl (by rw [Rat.num_ofNat]; norm_num))).1
  · exact ((pow_integer_exponent_exact (fun p q2 => p * q2) 0 ((1 : Int) : ℚ)
      (Rat.den_intCast _)).1 (Or.inl (by rw [Rat.num_intCast]; norm_num))).1
  · exact (pow_integer_exponent_exact (fun p q2 => p * q2) 0 ((-1 : Int) : ℚ)
      (Rat.den_intCast _)).2 rfl (by rw [Rat.num_intCast]; norm_num)

/-- Escaping a character not in the recognized escape set yields the
character itself. -/
theorem escChar_eq_self (c : Char)
    (h : c ∉ (['\\', '"', 'n', 'r', 't'] : List Char)) : escChar c = c := by
  simp only [List.mem_cons, List.not_mem_nil, or_false, not_or] at h
  obtain ⟨h1, h2, h3, h4, h5⟩ := h
  unfold escChar
  split <;> simp_all

/-- C4: for every input string, `new_string` never fails (it is total) and
unescapes it as follows: `\\`, `\"`, `\n`, `\r`, `\t` become backslash,
double quote, line feed, carriage return and tab; a backslash followed by
any other character yields that character literally; a lone trailing
backslash at end of input yields a literal backslash; all other characters
are copied through unchanged. -/
theorem new_string_escapes :
    (∀ s : String, Value.new_string s = .Str (String.mk (unescapeChars s.data)))
    ∧ unescapeChars [] = []
    ∧ (∀ rest, unescapeChars ('\\' :: '\\' :: rest) = '\\' :: unescapeChars rest)
    ∧ (∀ rest, unescapeChars ('\\' :: '"' :: rest) = '"' :: unescapeChars rest)
    ∧ (∀ rest, unescapeChars ('\\' :: 'n' :: rest) = '\n' :: unescapeChars rest)
    ∧ (∀ rest, unescapeChars ('\\' :: 'r' :: rest) = '\r' :: unescapeChars rest)
    ∧ (∀ rest, unescapeChars ('\\' :: 't' :: rest) = '\t' :: unescapeChars rest)
    ∧ (∀ (c : Char) (rest : List Char),
        c ∉ (['\\', '"', 'n', 'r', 't'] : List Char) →
        unescapeChars ('\\' :: c :: rest) = c :: unescapeChars rest)
    ∧ unescapeChars ['\\'] = ['\\']
    ∧ (∀ (c : Char) (rest : List Char), c ≠ '\\' →
        unescapeChars (c :: rest) = c :: unescapeChars rest) := by
  refine ⟨fun s => rfl, rfl, fun rest => ?_, fun rest => ?_, fun rest => ?_,
    fun rest => ?_, fun rest => ?_, fun c rest hc => ?_, ?_, fun c rest hc => ?_⟩
  · rw [unescapeChars, if_pos rfl]; rfl
  · rw [unescapeChars, if_pos rfl]; rfl
  · rw [unescapeChars, if_pos rfl]; rfl
  · rw [unescapeChars, if_pos rfl]; rfl
  · rw [unescapeChars, if_pos rfl]; rfl
  · show escChar c :: unescapeChars rest = c :: unescapeChars rest
    rw [escChar_eq_self c hc]
  · decide
  · cases rest with
    | nil =>
      show (if c = '\\' then ['\\'] else c :: unescapeChars []) = c :: unescapeChars []
      rw [if_neg hc]
    | cons e rest2 =>
      show (if c = '\\' then escChar e :: unescapeChars rest2
        else c :: unescapeChars (e :: rest2)) = c :: unescapeChars (e :: rest2)
      rw [if_neg hc]

/-- C4 witness: the two-character input backslash-`x` unescapes to the
literal `x`, and the string `a\nb` (backslash-n in the source text)
unescapes to `a`, line feed, `b`. -/
theorem new_string_escapes_witness :
    Value.new_string ("a\\nb") = .Str ("a\nb")
    ∧ unescapeChars ['\\', 'x'] = ['x'] := by
  have h := new_string_escapes
  constructor
  · rw [h.1 ("a\\nb")]
    have hx : unescapeChars ("a\\nb").data = ("a\nb").data := by decide
    rw [hx]
  · exact h.2.2.2.2.2.2.2.1 'x' [] (by decide)

/-- Any non-panicking, non-error result of `Value::pow` is a `Num`. -/
theorem pow_some_ok_num (approx : ℚ → ℚ → ℚ) (v w : Value)
    (r : Value) (h : Value.pow approx v w = some (.ok r)) :
    ∃ p : ℚ, r = .Num p := by
  cases v <;> cases w <;>
    simp only [Value.pow, Option.some.injEq] at h <;>
    try exact Except.noConfusion h
  rename_i a b
  split at h
  · rcases hp : ratPowInt a b.num with _ | p
    · rw [hp] at h
      exact Option.noConfusion h
    · rw [hp] at h
      exact ⟨p, (Except.ok.inj (Option.some.inj h)).symm⟩
  · exact ⟨_, (Except.ok.inj (Option.some.inj h)).symm⟩

/-- C7: every `Num` value produced by the operations `neg`, `add`, `sub`,
`mul`, `div` and `pow` is a rational in lowest terms (numerator and
denominator coprime) with a positive denominator. -/
theorem arith_results_reduced (approx : ℚ → ℚ → ℚ) (v w r : Value)
    (h : v.neg = .ok r ∨ v.add w = .ok r ∨ v.sub w = .ok r ∨ v.mul w = .ok r
      ∨ v.div w = .ok r ∨ Value.pow approx v w = some (.ok r)) :
    (∃ p : ℚ, r = .Num p)
    ∧ ∀ p : ℚ, r = .Num p → p.num.natAbs.Coprime p.den ∧ 0 < p.den := by
  refine ⟨?_, fun p _ => ⟨p.reduced, p.pos⟩⟩
  rcases h with h | h | h | h | h | h
  · cases v <;> simp only [Value.neg, Except.ok.injEq] at h <;>
      first
        | exact Except.noConfusion h
        | exact ⟨_, h.symm⟩
  · cases v <;> cases w <;> simp only [Value.add, Except.ok.injEq] at h <;>
      first
        | exact Except.noConfusion h
        | exact ⟨_, h.symm⟩
  · cases v <;> cases w <;> simp only [Value.sub, Except.ok.injEq] at h <;>
      first
        | exact Except.noConfusion h
        | exact ⟨_, h.symm⟩
  · cases v <;> cases w <;> simp only [Value.mul, Except.ok.injEq] at h <;>
      first
        | exact Except.noConfusion h
        | exact ⟨_, h.symm⟩
  · cases v <;> cases w <;> simp only [Value.div] at h <;>
      first
        | exact Except.noConfusion h
        | (split at h
           · exact Except.noConfusion h
           · exact ⟨_, (Except.ok.inj h).symm⟩)
  · exact pow_some_ok_num approx v w r h

/-- C7 witness: the negation of `Num 2` produces `Num (-2)`, which is in
lowest terms with a positive denominator. -/
theorem arith_results_reduced_witness :
    ((-2 : ℚ)).num.natAbs.Coprime ((-2 : ℚ)).den ∧ 0 < ((-2 : ℚ)).den := by
  exact (arith_results_reduced (fun p q2 => p) (.Num 2) .Void (.Num (-2))
    (Or.inl (by rw [Value.neg]))).2 (-2) rfl

/-- C3: `FunDef.check_valid()` fails with `InvalidArg` if and only if
`arg_names` contains a duplicate name, the error names the first repeated
argument (the name at the first position that already occurred earlier),
and when all names are distinct it returns `Ok`. -/
theorem check_valid_duplicate_spec (f : FunDef) :
    (f.check_valid = .ok () ↔ f.arg_names.Nodup)
    ∧ (∀ e, f.check_valid = .error e → ∃ m, e = .invalidArg m)
    ∧ (¬ f.arg_names.Nodup →
        ∃ i, ∃ hi : i < f.arg_names.length,
          f.arg_names.get ⟨i, hi⟩ ∈ f.arg_names.take i
          ∧ (∀ j, ∀ hj : j < f.arg_names.length, j < i →
              f.arg_names.get ⟨j, hj⟩ ∉ f.arg_names.take j)
          ∧ f.check_valid = .error (.invalidArg
              ("argument `" ++ f.arg_names.get ⟨i, hi⟩
                ++ "` appeared more than once!"))) := by
  have hok := checkValidFrom_ok_iff f.arg_names []
  have herr := checkValidFrom_error_first f.arg_names []
  have hiff : f.check_valid = .ok () ↔ f.arg_names.Nodup := by
    rw [FunDef.check_valid, hok]
    simp
  refine ⟨hiff, ?_, ?_⟩
  · intro e he
    by_cases hnd : f.arg_names.Nodup
    · rw [hiff.mpr hnd] at he
      exact Except.noConfusion he
    · obtain ⟨i, hi, hcond, hmin, heq⟩ := herr (by simp [hnd])
      rw [FunDef.check_valid] at he
      rw [he] at heq
      exact ⟨_, Except.error.inj heq⟩
  · intro hnd
    obtain ⟨i, hi, hcond, hmin, heq⟩ := herr (by simp [hnd])
    refine ⟨i, hi, ?_, ?_, ?_⟩
    · rcases hcond with hs | ht
      · exact absurd hs (List.not_mem_nil _)
      · exact ht
    · intro j hj hji
      exact (hmin j hj hji).2
    · rw [FunDef.check_valid]
      exact heq

/-- C3 witness: distinct argument names validate, and a repeated name `x`
is rejected with an `InvalidArg` error. -/
theorem check_valid_duplicate_spec_witness :
    (FunDef.mk ["x", "y"] (.Id ("b"))).check_valid = .ok ()
    ∧ ∃ e, (FunDef.mk ["x", "y", "x"] (.Id ("b"))).check_valid = .error e
        ∧ ∃ m, e = .invalidArg m := by
  have h1 := check_valid_duplicate_spec (FunDef.mk ["x", "y"] (.Id ("b")))
  have h2 := check_valid_duplicate_spec (FunDef.mk ["x", "y", "x"] (.Id ("b")))
  refine ⟨h1.1.mpr (by decide), ?_⟩
  obtain ⟨i, hi, -, -, heq⟩ := h2.2.2 (by decide)
  exact ⟨_, heq, h2.2.1 _ heq⟩

/-- C6: for a `Map` container, `index_mut` with an absent key inserts
`None` at that key and returns that location when `insert` is true, and
fails with `InvalidArg` when `insert` is false; applying `index_mut` to
any `Value` that is neither a `List` nor a `Map` fails with
`UnexpectedType`. -/
theorem index_mut_map_missing_key (m : List (Value × Value)) (k : Value)
    (habs : btreeGet m k = none) :
    Value.index_mut (.Map m) k true = .ok (.Map (m ++ [(k, Value.None)]), Value.None)
    ∧ (∃ msg, Value.index_mut (.Map m) k false = .error (.invalidArg msg))
    ∧ (∀ (v : Value) (ins : HostBool),
        (∀ l, v ≠ .List l) → (∀ m2, v ≠ .Map m2) →
        ∃ msg, Value.index_mut v k ins = .error (.unexpectedType msg)) := by
  refine ⟨?_, ?_, ?_⟩
  · simp [Value.index_mut, mapEntryOrInsert_of_absent m k habs]
  · refine ⟨"key `" ++ valueDisplay k ++ "` not found in map", ?_⟩
    simp [Value.index_mut, habs]
  · intro v ins hL hM
    cases v
    case List l => exact absurd rfl (hL l)
    case Map m2 => exact absurd rfl (hM m2)
    all_goals exact ⟨_, rfl⟩

/-- C6 witness: inserting at the absent key `"b"` of the map
`{"a" ↦ 1}` appends `"b" ↦ None` and returns `None`. -/
theorem index_mut_map_missing_key_witness :
    Value.index_mut (.Map [(.Str ("a"), .Num 1)]) (.Str ("b")) true
      = .ok (.Map [(.Str ("a"), .Num 1), (.Str ("b"), Value.None)], Value.None) := by
  have habs : btreeGet [(.Str ("a"), .Num 1)] (.Str ("b")) = none := by
    simp [btreeGet, valueBeq]
  simpa using (index_mut_map_missing_key _ _ habs).1

/-- C10: for every `Map` value and every key already bound in it,
`index_mut` with the insert flag set returns the value already bound to
the key and leaves the map unchanged. -/
theorem index_mut_map_existing_key (m : List (Value × Value)) (k v : Value)
    (h : btreeGet m k = some v) :
    Value.index_mut (.Map m) k true = .ok (.Map m, v) := by
  simp [Value.index_mut, mapEntryOrInsert_of_present m k v h]

/-- C10 witness: indexing the map `{"a" ↦ 1}` at the bound key `"a"` with
the insert flag returns the bound value `1` and the unchanged map. -/
theorem index_mut_map_existing_key_witness :
    Value.index_mut (.Map [(.Str ("a"), .Num 1)]) (.Str ("a")) true
      = .ok (.Map [(.Str ("a"), .Num 1)], .Num 1) := by
  have hp : btreeGet [(.Str ("a"), .Num 1)] (.Str ("a")) = some (.Num 1) := by
    simp [btreeGet, valueBeq]
  exact index_mut_map_existing_key _ _ _ hp

/-- C2: for every `List` value (of host-representable length) and every
integer-valued `Num` key in the 32-bit numerator range: negative indices
in range count from the end (index `i < 0` addresses position
`length - |i|`, so index `-1` returns the same element as index
`length - 1`), and any index past either end — `length` and beyond, or
below `-length` — fails with `InvalidArg`. -/
theorem list_indexing_spec (l : List Value) (ins : HostBool)
    (hlen : (l.length : Int) < 2 ^ 63) :
    (∀ i : Int, -(l.length : Int) ≤ i → i < 0 →
        ∃ v, l[(l.length - i.natAbs)]? = some v ∧
          Value.index_mut (.List l) (.Num (i : ℚ)) ins = .ok (.List l, v))
    ∧ (l ≠ [] →
        Value.index_mut (.List l) (.Num ((-1 : Int) : ℚ)) ins
          = Value.index_mut (.List l) (.Num ((((l.length : Int) - 1 : Int)) : ℚ)) ins
        ∧ ∃ v, Value.index_mut (.List l) (.Num ((-1 : Int) : ℚ)) ins
            = .ok (.List l, v))
    ∧ (∀ i : Int, -(2 : Int) ^ 31 ≤ i → i < 2 ^ 31 →
        ((l.length : Int) ≤ i ∨ i < -(l.length : Int)) →
        ∃ msg, Value.index_mut (.List l) (.Num (i : ℚ)) ins
          = .error (.invalidArg msg)) := by
  have part1 : ∀ i : Int, -(l.length : Int) ≤ i → i < 0 →
      ∃ v, l[(l.length - i.natAbs)]? = some v ∧
        Value.index_mut (.List l) (.Num (i : ℚ)) ins = .ok (.List l, v) := by
    intro i h1 h2
    have hna : i.natAbs ≤ l.length := by omega
    have hlt : l.length - i.natAbs < l.length := by omega
    refine ⟨_, List.getElem?_eq_getElem hlt, ?_⟩
    simp [Value.index_mut, listIdx_neg_in_range i l.length h2 hna,
      List.getElem?_eq_getElem hlt]
  have part3 : ∀ i : Int, -(2 : Int) ^ 31 ≤ i → i < 2 ^ 31 →
      ((l.length : Int) ≤ i ∨ i < -(l.length : Int)) →
      ∃ msg, Value.index_mut (.List l) (.Num (i : ℚ)) ins
        = .error (.invalidArg msg) := by
    intro i hi1 hi2 hcase
    refine ⟨"index " ++ numDisplay ((i : Int) : ℚ) ++ " is out of bounds", ?_⟩
    have hnone : l[listIdx i l.length]? = none := by
      apply List.getElem?_eq_none
      rcases hcase with hge | hlt2
      · rw [listIdx_nonneg i l.length (by omega) (by omega)]
        omega
      · have := listIdx_neg_out_of_range i l.length (by omega) (by omega) hi1
        omega
    simp [Value.index_mut, hnone]
  refine ⟨part1, ?_, part3⟩
  intro hne
  have hpos : 0 < l.length := List.length_pos.mpr hne
  obtain ⟨v, hv, heq⟩ := part1 (-1) (by omega) (by omega)
  simp only [Int.natAbs_neg, Int.natAbs_one] at hv
  have heq2 : Value.index_mut (.List l) (.Num ((((l.length : Int) - 1 : Int)) : ℚ)) ins
      = .ok (.List l, v) := by
    have hden : ((((l.length : Int) - 1 : Int)) : ℚ).den = 1 := Rat.den_intCast _
    have hnum : ((((l.length : Int) - 1 : Int)) : ℚ).num = (l.length : Int) - 1 :=
      Rat.num_intCast _
    have hidx : listIdx ((l.length : Int) - 1) l.length = l.length - 1 := by
      rw [listIdx_nonneg _ _ (by omega) (by omega)]
      omega
    simp only [Value.index_mut, hden, hnum, hidx, hv, eq_self_iff_true, if_true]
  exact ⟨heq.trans heq2.symm, ⟨v, heq⟩⟩

/-- C2 witness: on the two-element list `[None, Bool true]`, index `-1`
returns the last element. -/
theorem list_indexing_spec_witness :
    Value.index_mut (.List [Value.None, Value.Bool true]) (.Num ((-1 : Int) : ℚ)) false
      = .ok (.List [Value.None, Value.Bool true], Value.Bool true) := by
  obtain ⟨v, hv, heq⟩ := (list_indexing_spec [Value.None, Value.Bool true] false
    (by norm_num)).1 (-1) (by norm_num) (by norm_num)
  simp at hv
  rw [heq, hv]

end Roller
